import Mathlib

/-!
Verification of the streak aggregation algorithm of `src/app/api/streak/route.ts`
(`computeAllStats` and its date helpers).

Modelling conventions:
* A calendar date is an `Int`: its UTC epoch day number (days since 1970-01-01).
  The source stores dates as fixed-width ISO `YYYY-MM-DD` strings; lexicographic
  order on those strings coincides with the numeric order of the day numbers, and
  `addDays d k` is day-number addition, so the embedding is faithful.
  In concrete test inputs we use real epoch day numbers
  (2024-01-01 = 19723, ..., 2024-01-06 = 19728).
* `contributionCount` is a `Nat` (GitHub contribution counts are non-negative
  integers; the spec's data model fixes `count` as a non-negative integer).
* JavaScript `Array.prototype.sort` is stable; `sortDays` below is a stable
  insertion sort by date, ascending, matching `[...daysAsc].sort((a,b) =>
  a.date.localeCompare(b.date))`.
* A JavaScript `Map` built from an entry list keeps, for each key, the value of
  the last entry with that key; `mapGet` looks a key up with default 0,
  matching `map.get(key) ?? 0`.
* The source's unbounded backward `for` loop is embedded as `walk` with an
  explicit fuel; `stdFuel` is proved large enough that the fuel never runs out
  (lemma `walk_stable`), so the embedding computes exactly what the loop does.
* The implicit `new Date()` of the source is threaded as the explicit parameter
  `today` (today's UTC calendar date derived from the reference instant `now`).
* The empty ISO string sentinel used by the source for "no date yet"
  (`runStart`, `bestStart`, `bestEnd`) is embedded as `none : Option Int`.
-/

namespace StreakBadge

/-- One day record: `type Day = { date: string; contributionCount: number }`. -/
structure Day where
  date : Int
  contributionCount : Nat
deriving DecidableEq, Repr

/-- The record returned by `computeAllStats`. -/
structure StreakStats where
  total : Nat
  firstActive : Int
  current : Nat
  currentStart : Int
  currentEnd : Int
  max : Nat
  maxStart : Option Int
  maxEnd : Option Int
deriving DecidableEq, Repr

/-- Insert a day into a list sorted ascending by date, before the first entry
whose date is ≥ its own.  Used by `sortDays` to model the stable ascending sort
`[...daysAsc].sort((a, b) => a.date.localeCompare(b.date))`. -/
def insertDay (d : Day) : List Day → List Day
  | [] => [d]
  | e :: rest => if d.date ≤ e.date then d :: e :: rest else e :: insertDay d rest

/-- Stable sort ascending by date (insertion sort; elements with equal dates
keep their input order, as ECMAScript's `Array.prototype.sort` guarantees). -/
def sortDays (l : List Day) : List Day := l.foldr insertDay []

/-- `new Map(days.map((d) => [d.date, d.contributionCount]))` followed by
`map.get(k) ?? 0`: the count of the last entry of `l` with date `k`, or 0 when
no entry has that date. -/
def mapGet (l : List Day) (k : Int) : Nat :=
  match (l.filter (fun d => d.date == k)).getLast? with
  | some d => d.contributionCount
  | none => 0

/-- The loop state of the longest-streak scan: `max`, `run`, `runStart`,
`bestStart`, `bestEnd` of the source (empty-string sentinels as `none`). -/
structure LongestState where
  max : Nat
  run : Nat
  runStart : Option Int
  bestStart : Option Int
  bestEnd : Option Int
deriving DecidableEq, Repr

/-- One iteration of `for (const d of days)` in the longest-streak scan:
on a positive day start/extend the run and record it when it beats the best;
on a zero day reset the run. -/
def longestStep (st : LongestState) (d : Day) : LongestState :=
  if 0 < d.contributionCount then
    let rs := if st.run = 0 then some d.date else st.runStart
    let r := st.run + 1
    if st.max < r then
      { max := r, run := r, runStart := rs, bestStart := rs, bestEnd := some d.date }
    else
      { st with run := r, runStart := rs }
  else
    { st with run := 0, runStart := none }

/-- The anchor of the current-streak walk: today when today's mapped count is
positive, otherwise yesterday.  Embeds
`let end = toUTCDate(new Date()); if ((map.get(end) ?? 0) === 0) end = toUTCDate(addDays(new Date(), -1))`. -/
def currentAnchor (days : List Day) (today : Int) : Int :=
  if mapGet days today = 0 then today - 1 else today

/-- The backward walk of the current-streak loop, with explicit fuel:
`for (let dt = ...; ; dt = addDays(dt, -1)) { const c = map.get(key) ?? 0;
if (c > 0) { current++; currentStart = key; } else break;
if (key === days[0]?.date) break; }`.
`m` is the map lookup, `firstDate` is `days[0]?.date`.  Returns
`(current, currentStart)`. -/
def walk (m : Int → Nat) (firstDate : Option Int) :
    Nat → Int → Nat → Int → Nat × Int
  | 0, _, current, currentStart => (current, currentStart)
  | fuel + 1, dt, current, currentStart =>
    if 0 < m dt then
      if firstDate = some dt then (current + 1, dt)
      else walk m firstDate fuel (dt - 1) (current + 1) dt
    else (current, currentStart)

/-- Fuel that suffices for the backward walk: one more than the number of days
from the earliest date of the (sorted) window up to the anchor.  `walk_stable`
proves any larger fuel gives the same result, so the source's unbounded loop is
faithfully captured. -/
def stdFuel (days : List Day) (today : Int) : Nat :=
  match days.head? with
  | some d => (currentAnchor days today - d.date).toNat + 1
  | none => 1

/-- The `(current, currentStart)` pair computed by the current-streak loop on
the sorted day list, with a given fuel. -/
def currentResult (days : List Day) (today : Int) (fuel : Nat) : Nat × Int :=
  walk (mapGet days) (days.head?.map Day.date) fuel
    (currentAnchor days today) 0 (currentAnchor days today)

/-- Embeds `computeAllStats(daysAsc)` of `src/app/api/streak/route.ts`
(lines 18-73), with the implicit wall-clock date threaded as `today`. -/
def computeAllStats (daysAsc : List Day) (today : Int) : StreakStats :=
  let days := sortDays daysAsc
  let total := days.foldl (fun s d => s + d.contributionCount) 0
  let firstActive :=
    ((days.find? (fun d => decide (0 < d.contributionCount))).map Day.date).getD today
  let lst := days.foldl longestStep ⟨0, 0, none, none, none⟩
  let res := currentResult days today (stdFuel days today)
  { total := total
    firstActive := firstActive
    current := res.1
    currentStart := res.2
    currentEnd := currentAnchor days today
    max := lst.max
    maxStart := lst.bestStart
    maxEnd := lst.bestEnd }

/-- Last-wins deduplication by date, performed on the raw input list: keep an
occurrence exactly when no later occurrence has the same date.  This is the
normalization step the spec describes before sorting. -/
def dedupLastWins (l : List Day) : List Day :=
  l.foldr (fun d acc => if acc.any (fun e => e.date == d.date) then acc else d :: acc) []

/-- The sorted-ascending-by-date predicate. -/
def SortedByDate (l : List Day) : Prop := l.Pairwise (fun a b => a.date ≤ b.date)

/-- The window of `n` consecutive entries of `l` starting at index `i` consists
of days that all have a positive count (and lies inside `l`).  This is the
declarative notion of a run of consecutive positive entries of the list. -/
def posWindow (l : List Day) (i n : Nat) : Prop :=
  i + n ≤ l.length ∧ ∀ d ∈ (l.drop i).take n, 0 < d.contributionCount

/-- The length of the maximal all-positive suffix of `l` — the value the
longest-streak scan holds in `run` after processing `l`. -/
def trail (l : List Day) : Nat :=
  (l.reverse.takeWhile (fun d => decide (0 < d.contributionCount))).length

/-- The loop invariant of the longest-streak scan after processing the prefix
`p`: `run` is the trailing run length with `runStart` its first date, `max` is
the length of the longest all-positive window of `p`, and the best range marks
the earliest window attaining it. -/
def LInv (p : List Day) (st : LongestState) : Prop :=
  st.run = trail p ∧
  (st.run = 0 → st.runStart = none) ∧
  (0 < st.run → st.runStart = (p[p.length - st.run]?).map Day.date) ∧
  (∃ i, posWindow p i st.max) ∧
  (∀ i n, posWindow p i n → n ≤ st.max) ∧
  (st.max = 0 → st.bestStart = none ∧ st.bestEnd = none) ∧
  (0 < st.max →
    ∃ i, posWindow p i st.max ∧ (∀ j, posWindow p j st.max → i ≤ j) ∧
      st.bestStart = (p[i]?).map Day.date ∧
      st.bestEnd = (p[i + st.max - 1]?).map Day.date)

/-! ### Sortedness of `sortDays` and basic `mapGet` facts -/

lemma mem_insertDay {d x : Day} {l : List Day} (hx : x ∈ insertDay d l) :
    x = d ∨ x ∈ l := by
  induction l with
  | nil => simpa [insertDay] using hx
  | cons e rest ih =>
    by_cases h : d.date ≤ e.date
    · simp only [insertDay, if_pos h, List.mem_cons] at hx
      rcases hx with hx | hx | hx
      · exact Or.inl hx
      · exact Or.inr (List.mem_cons.mpr (Or.inl hx))
      · exact Or.inr (List.mem_cons.mpr (Or.inr hx))
    · simp only [insertDay, if_neg h, List.mem_cons] at hx
      rcases hx with hx | hx
      · exact Or.inr (List.mem_cons.mpr (Or.inl hx))
      · rcases ih hx with hx2 | hx2
        · exact Or.inl hx2
        · exact Or.inr (List.mem_cons.mpr (Or.inr hx2))

lemma sorted_insertDay (d : Day) {l : List Day} (h : SortedByDate l) :
    SortedByDate (insertDay d l) := by
  induction l with
  | nil => simp [insertDay, SortedByDate]
  | cons e rest ih =>
    rcases (List.pairwise_cons.mp h) with ⟨he, hrest⟩
    by_cases hd : d.date ≤ e.date
    · simp only [insertDay, if_pos hd]
      refine List.pairwise_cons.mpr ⟨?_, h⟩
      intro x hx
      rcases List.mem_cons.mp hx with rfl | hx
      · exact hd
      · exact le_trans hd (he x hx)
    · simp only [insertDay, if_neg hd]
      refine List.pairwise_cons.mpr ⟨?_, ih hrest⟩
      intro x hx
      rcases mem_insertDay hx with rfl | hx
      · exact le_of_not_le hd
      · exact he x hx

lemma sorted_sortDays (l : List Day) : SortedByDate (sortDays l) := by
  induction l with
  | nil => simp [sortDays, SortedByDate]
  | cons d rest ih => exact sorted_insertDay d ih

lemma mem_of_getLast?_eq {α : Type} {l : List α} {a : α} (h : l.getLast? = some a) :
    a ∈ l := by
  cases l with
  | nil => simp at h
  | cons x xs =>
    have hne : x :: xs ≠ [] := by simp
    rw [List.getLast?_eq_getLast_of_ne_nil hne] at h
    have hm := List.getLast_mem hne
    rwa [Option.some_inj.mp h] at hm

lemma mapGet_pos_mem {l : List Day} {k : Int} (h : 0 < mapGet l k) :
    ∃ d ∈ l, d.date = k := by
  unfold mapGet at h
  rcases hl : (l.filter (fun d => d.date == k)).getLast? with _ | d
  · rw [hl] at h; simp at h
  · have hmem : d ∈ l.filter (fun d => d.date == k) := mem_of_getLast?_eq hl
    have hf := List.mem_filter.mp hmem
    exact ⟨d, hf.1, by simpa using hf.2⟩

lemma head_date_le {h : Day} {t : List Day} (hs : SortedByDate (h :: t)) {d : Day}
    (hd : d ∈ h :: t) : h.date ≤ d.date := by
  rcases List.mem_cons.mp hd with rfl | hd
  · exact le_refl _
  · exact (List.pairwise_cons.mp hs).1 d hd

/-- On a sorted nonempty window, any key with a positive mapped count is at or
after the head's date.  This is the fact that bounds the backward walk. -/
lemma sorted_mapGet_ge {h : Day} {t : List Day} (hs : SortedByDate (h :: t))
    {k : Int} (hk : 0 < mapGet (h :: t) k) : h.date ≤ k := by
  obtain ⟨d, hd, rfl⟩ := mapGet_pos_mem hk
  exact head_date_le hs hd

/-! ### The backward walk: accumulator shift, fuel stability, characterization -/

/-- The walk's result decomposes over its accumulator: starting the count at
`cur` adds `cur` to the count of a walk started at 0; the start slot keeps its
initial value exactly when the walk counts nothing. -/
lemma walk_shift (m : Int → Nat) (fd : Option Int) :
    ∀ (fuel : Nat) (dt : Int) (cur : Nat) (cs cs' : Int),
      walk m fd fuel dt cur cs
        = (cur + (walk m fd fuel dt 0 cs').1,
           if (walk m fd fuel dt 0 cs').1 = 0 then cs else (walk m fd fuel dt 0 cs').2) := by
  intro fuel
  induction fuel with
  | zero => intro dt cur cs cs'; simp [walk]
  | succ n ih =>
    intro dt cur cs cs'
    by_cases hm : 0 < m dt
    · by_cases hfd : fd = some dt
      · simp [walk, hm, hfd]
      · simp only [walk, if_pos hm, if_neg hfd]
        rw [ih (dt - 1) (cur + 1) dt 0, ih (dt - 1) (0 + 1) dt 0]
        rcases hA : (walk m fd n (dt - 1) 0 0).1 with _ | a
        · simp [hA]
        · simp [hA]; omega
    · simp [walk, hm]

/-- Fuel stability: once the fuel exceeds the day distance from `dt` down to
the least positive key `lo`, adding more fuel does not change the walk's
result — the source's unbounded loop terminates within that many steps. -/
lemma walk_stable (m : Int → Nat) (fd : Option Int) (lo : Int)
    (H : ∀ k, 0 < m k → fd = some lo ∧ lo ≤ k) :
    ∀ (fuel extra : Nat) (dt : Int) (cur : Nat) (cs : Int),
      (dt - lo).toNat < fuel →
      walk m fd (fuel + extra) dt cur cs = walk m fd fuel dt cur cs := by
  intro fuel
  induction fuel with
  | zero => intro extra dt cur cs h; omega
  | succ n ih =>
    intro extra dt cur cs h
    have hre : n + 1 + extra = (n + extra) + 1 := by omega
    rw [hre]
    by_cases hm : 0 < m dt
    · by_cases hfd : fd = some dt
      · simp [walk, hm, hfd]
      · simp only [walk, if_pos hm, if_neg hfd]
        apply ih
        obtain ⟨hfd', hlo⟩ := H dt hm
        have hne : lo ≠ dt := fun he => hfd (he ▸ hfd')
        omega
    · simp [walk, hm]

/-- Full characterization of the walk started with count 0 at anchor `dt`,
given sufficient fuel: the count is the least offset `i` with `m (dt - i) = 0`
(every smaller offset has a positive count), and the returned start is the
earliest counted date (`dt` itself when the count is 0). -/
lemma walk_count (m : Int → Nat) (fd : Option Int) (lo : Int)
    (H : ∀ k, 0 < m k → fd = some lo ∧ lo ≤ k) :
    ∀ (fuel : Nat) (dt : Int), (dt - lo).toNat < fuel →
      ((∀ i : Nat, i < (walk m fd fuel dt 0 dt).1 → 0 < m (dt - (i : Int))) ∧
       m (dt - ((walk m fd fuel dt 0 dt).1 : Int)) = 0 ∧
       (walk m fd fuel dt 0 dt).2
         = (if (walk m fd fuel dt 0 dt).1 = 0 then dt
            else dt - (((walk m fd fuel dt 0 dt).1 : Int) - 1))) := by
  intro fuel
  induction fuel with
  | zero => intro dt h; omega
  | succ n ih =>
    intro dt h
    by_cases hm : 0 < m dt
    · obtain ⟨hfd', hlo⟩ := H dt hm
      by_cases hfd : fd = some dt
      · have hlodt : lo = dt := by
          rw [hfd] at hfd'
          exact (Option.some_inj.mp hfd').symm
        have hres : walk m fd (n + 1) dt 0 dt = (1, dt) := by
          simp [walk, hm, hfd]
        refine ⟨?_, ?_, ?_⟩
        · intro i hi
          rw [hres] at hi
          have hzero : i = 0 := by simp at hi; omega
          simpa [hzero] using hm
        · rw [hres]
          by_contra hpos
          have hpos' : 0 < m (dt - 1) := Nat.pos_of_ne_zero hpos
          have := (H _ hpos').2
          omega
        · rw [hres]; norm_num
      · have hne : lo ≠ dt := fun he => hfd (he ▸ hfd')
        have hres : walk m fd (n + 1) dt 0 dt = walk m fd n (dt - 1) (0 + 1) dt := by
          simp only [walk, if_pos hm, if_neg hfd]
        have hshift := walk_shift m fd n (dt - 1) (0 + 1) dt (dt - 1)
        have hbound : (dt - 1 - lo).toNat < n := by omega
        obtain ⟨ih1, ih2, ih3⟩ := ih (dt - 1) hbound
        set A := walk m fd n (dt - 1) 0 (dt - 1) with hAdef
        have hres' : walk m fd (n + 1) dt 0 dt
            = (1 + A.1, if A.1 = 0 then dt else A.2) := by
          rw [hres, hshift]
        refine ⟨?_, ?_, ?_⟩
        · intro i hi
          rw [hres'] at hi
          match i with
          | 0 => simpa using hm
          | j + 1 =>
            have hj : j < A.1 := by simp at hi; omega
            have hij := ih1 j hj
            have harg : dt - ((j + 1 : Nat) : Int) = dt - 1 - (j : Int) := by
              push_cast; ring
            rw [harg]
            exact hij
        · rw [hres']
          have harg : dt - (((1 + A.1, if A.1 = 0 then dt else A.2).1 : Nat) : Int)
              = dt - 1 - (A.1 : Int) := by
            push_cast; ring
          rw [harg]
          exact ih2
        · rw [hres']
          rcases hA1 : A.1 with _ | a
          · simp [hA1]
          · have hA2 : A.2 = dt - 1 - ((A.1 : Int) - 1) := by
              rw [ih3, if_neg (by omega)]
            rw [hA1] at hA2
            simp only [hA1]
            rw [if_neg (by omega), if_neg (by omega), hA2]
            push_cast
            ring
    · have hres : walk m fd (n + 1) dt 0 dt = (0, dt) := by simp [walk, hm]
      refine ⟨?_, ?_, ?_⟩
      · intro i hi; rw [hres] at hi; simp at hi
      · rw [hres]
        simpa using Nat.eq_zero_of_not_pos hm
      · rw [hres]; simp

/-- The walk characterization instantiated at a sorted day window: the head of
a sorted window is its least date, so it supplies the bound `walk_count`
needs. -/
lemma currentResult_char (days : List Day) (hs : SortedByDate days) (today : Int) :
    (∀ i : Nat, i < (currentResult days today (stdFuel days today)).1 →
        0 < mapGet days (currentAnchor days today - (i : Int))) ∧
    mapGet days (currentAnchor days today
        - ((currentResult days today (stdFuel days today)).1 : Int)) = 0 ∧
    (currentResult days today (stdFuel days today)).2
      = (if (currentResult days today (stdFuel days today)).1 = 0
         then currentAnchor days today
         else currentAnchor days today
              - (((currentResult days today (stdFuel days today)).1 : Int) - 1)) := by
  rcases days with _ | ⟨h, t⟩
  · exact walk_count (mapGet ([] : List Day))
      (([] : List Day).head?.map Day.date) (currentAnchor [] today)
      (fun k hk => by simp [mapGet] at hk)
      (stdFuel [] today) (currentAnchor [] today)
      (by simp [stdFuel])
  · have H : ∀ k, 0 < mapGet (h :: t) k →
        (h :: t).head?.map Day.date = some h.date ∧ h.date ≤ k := by
      intro k hk
      exact ⟨rfl, sorted_mapGet_ge hs hk⟩
    exact walk_count (mapGet (h :: t)) ((h :: t).head?.map Day.date) h.date H
      (stdFuel (h :: t) today) (currentAnchor (h :: t) today)
      (by simp [stdFuel])

/-- The `(current, currentStart, currentEnd)` characterization of
`computeAllStats`, shared by several claims: the anchor is today when its
mapped count is positive, else yesterday; the streak counts the consecutive
positive offsets back from the anchor; the start is the earliest counted date. -/
lemma computeAllStats_current_char (daysAsc : List Day) (today : Int) :
    (computeAllStats daysAsc today).currentEnd
        = (if mapGet (sortDays daysAsc) today = 0 then today - 1 else today) ∧
    (∀ i : Nat, i < (computeAllStats daysAsc today).current →
        0 < mapGet (sortDays daysAsc)
              ((computeAllStats daysAsc today).currentEnd - (i : Int))) ∧
    mapGet (sortDays daysAsc)
        ((computeAllStats daysAsc today).currentEnd
          - ((computeAllStats daysAsc today).current : Int)) = 0 ∧
    (computeAllStats daysAsc today).currentStart
        = (if (computeAllStats daysAsc today).current = 0
           then (computeAllStats daysAsc today).currentEnd
           else (computeAllStats daysAsc today).currentEnd
                - (((computeAllStats daysAsc today).current : Int) - 1)) := by
  have hchar := currentResult_char (sortDays daysAsc) (sorted_sortDays daysAsc) today
  have hend : (computeAllStats daysAsc today).currentEnd
      = currentAnchor (sortDays daysAsc) today := rfl
  have hcur : (computeAllStats daysAsc today).current
      = (currentResult (sortDays daysAsc) today (stdFuel (sortDays daysAsc) today)).1 := rfl
  have hcs : (computeAllStats daysAsc today).currentStart
      = (currentResult (sortDays daysAsc) today (stdFuel (sortDays daysAsc) today)).2 := rfl
  refine ⟨hend, ?_, ?_, ?_⟩
  · intro i hi
    rw [hcur] at hi
    rw [hend]
    exact hchar.1 i hi
  · rw [hcur, hend]
    exact hchar.2.1
  · rw [hcs, hcur, hend]
    exact hchar.2.2
/-! ### Easy claim theorems: concrete scenarios -/

/-- C4, counterexample: on the spec's scenario
(days 2024-01-01..2024-01-06 with counts 1,1,0,1,1,1; now = 2024-01-06T12:00:00Z,
i.e. today = epoch day 19728) the returned total is not 4: the code sums the
counts, which gives 5. -/
theorem C4_cex :
    (computeAllStats
        [⟨19723, 1⟩, ⟨19724, 1⟩, ⟨19725, 0⟩, ⟨19726, 1⟩, ⟨19727, 1⟩, ⟨19728, 1⟩]
        19728).total ≠ 4 := by decide

/-- C4, amended: on the scenario days 2024-01-01..2024-01-06 with counts
1,1,0,1,1,1 and today = 2024-01-06 (epoch day 19728), `computeAllStats` returns
longestStreak 3 with range Jan 4 (19726) to Jan 6 (19728), currentStreak 3 with
the same range, and total 5 (the sum of the counts; the spec's scenario line
says 4, which contradicts its own definition of total). -/
theorem C4_scenario :
    computeAllStats
        [⟨19723, 1⟩, ⟨19724, 1⟩, ⟨19725, 0⟩, ⟨19726, 1⟩, ⟨19727, 1⟩, ⟨19728, 1⟩]
        19728
      = ⟨5, 19723, 3, 19726, 19728, 3, some 19726, some 19728⟩ := by decide

/-- C6, counterexample: on the empty list with today = 100, the returned
currentStart and currentEnd are 99 (yesterday), not today's date 100: the empty
map gives today count 0, so the anchor shifts to yesterday before the walk. -/
theorem C6_cex :
    (computeAllStats ([] : List Day) 100).currentStart ≠ 100 ∧
    (computeAllStats ([] : List Day) 100).currentEnd ≠ 100 := by decide

/-- C6, amended: on the empty list, for every today, `computeAllStats` returns
total 0, currentStreak 0, longestStreak 0, firstActive defaulting to today, and
currentStart = currentEnd = today - 1 (yesterday, not today: the empty map makes
today's count 0, which shifts the anchor back one day); the longest-streak date
fields stay unset. -/
theorem C6_empty (today : Int) :
    computeAllStats ([] : List Day) today
      = ⟨0, today, 0, today - 1, today - 1, 0, none, none⟩ := rfl

/-- C7: the implementation does not guarantee longestStreak ≥ currentStreak:
on days [(4,1),(5,0),(5,1)] with today = 5 the duplicate date 5 resolves to
count 1 in the walk's map (last wins) while the list scan sees the zero entry,
giving currentStreak 2 but longestStreak 1. -/
theorem C7_current_can_exceed_longest :
    ∃ (l : List Day) (today : Int),
      (computeAllStats l today).max < (computeAllStats l today).current :=
  ⟨[⟨4, 1⟩, ⟨5, 0⟩, ⟨5, 1⟩], 5, by decide⟩

/-- C8: a gap in the day list (dates 5 and 7 present and positive, date 6
absent) is streak-continuing for the longest-streak list scan (both entries are
consecutive list entries, giving a run of 2) but streak-breaking for the
current-streak backward walk anchored at 7 (the map lookup at 6 returns 0),
giving currentStreak 1. -/
theorem C8_gap_divergence :
    (computeAllStats [⟨5, 1⟩, ⟨7, 1⟩] 7).max = 2 ∧
    (computeAllStats [⟨5, 1⟩, ⟨7, 1⟩] 7).current = 1 ∧
    (computeAllStats [⟨5, 1⟩, ⟨7, 1⟩] 7).currentEnd = 7 ∧
    mapGet (sortDays [⟨5, 1⟩, ⟨7, 1⟩]) 6 = 0 ∧
    (sortDays [⟨5, 1⟩, ⟨7, 1⟩]).all (fun d => d.date != 6) = true := by decide

/-- C3, counterexample: on the list [(0,1),(0,1)] (a duplicated date) with
today = 0, `computeAllStats` differs from `computeAllStats` of the last-wins
deduplicated list: the raw list gives total 2 and longestStreak 2, the
deduplicated list gives total 1 and longestStreak 1, because the code never
deduplicates before summing or scanning. -/
theorem C3_cex :
    computeAllStats [⟨0, 1⟩, ⟨0, 1⟩] 0
      ≠ computeAllStats (dedupLastWins [⟨0, 1⟩, ⟨0, 1⟩]) 0 := by decide

/-! ### Permutation facts and the total -/

lemma insertDay_perm (d : Day) (l : List Day) : (insertDay d l).Perm (d :: l) := by
  induction l with
  | nil => exact List.Perm.refl _
  | cons e rest ih =>
    by_cases h : d.date ≤ e.date
    · simp only [insertDay, if_pos h]
      exact List.Perm.refl _
    · simp only [insertDay, if_neg h]
      exact (ih.cons e).trans (List.Perm.swap d e rest)

lemma sortDays_perm (l : List Day) : (sortDays l).Perm l := by
  induction l with
  | nil => exact List.Perm.refl _
  | cons d rest ih =>
    exact (insertDay_perm d (sortDays rest)).trans (ih.cons d)

lemma foldl_add_count (l : List Day) :
    ∀ a : Nat, l.foldl (fun s d => s + d.contributionCount) a
      = a + (l.map Day.contributionCount).sum := by
  induction l with
  | nil => intro a; simp
  | cons d rest ih =>
    intro a
    rw [List.foldl_cons, ih, List.map_cons, List.sum_cons]
    omega

lemma computeAllStats_total (l : List Day) (today : Int) :
    (computeAllStats l today).total = (l.map Day.contributionCount).sum := by
  have h1 : (computeAllStats l today).total
      = (sortDays l).foldl (fun s d => s + d.contributionCount) 0 := rfl
  rw [h1, foldl_add_count]
  have hp : ((sortDays l).map Day.contributionCount).Perm (l.map Day.contributionCount) :=
    (sortDays_perm l).map _
  simpa using hp.sum_eq

/-- Fuel stability lifted to `currentResult` on a sorted window. -/
lemma currentResult_fuel_stable (days : List Day) (hs : SortedByDate days)
    (today : Int) (extra : Nat) :
    currentResult days today (stdFuel days today + extra)
      = currentResult days today (stdFuel days today) := by
  rcases days with _ | ⟨h, t⟩
  · exact walk_stable (mapGet ([] : List Day))
      (([] : List Day).head?.map Day.date) (currentAnchor [] today)
      (fun k hk => by simp [mapGet] at hk)
      (stdFuel [] today) extra (currentAnchor [] today) 0 (currentAnchor [] today)
      (by simp [stdFuel])
  · exact walk_stable (mapGet (h :: t)) ((h :: t).head?.map Day.date) h.date
      (fun k hk => ⟨rfl, sorted_mapGet_ge hs hk⟩)
      (stdFuel (h :: t) today) extra (currentAnchor (h :: t) today) 0
      (currentAnchor (h :: t) today)
      (by simp [stdFuel])

/-! ### Stability of the sort and last-wins deduplication -/

lemma filter_insertDay (d : Day) (l : List Day) (k : Int) :
    (insertDay d l).filter (fun e => e.date == k)
      = if d.date = k then d :: l.filter (fun e => e.date == k)
        else l.filter (fun e => e.date == k) := by
  induction l with
  | nil =>
    by_cases hdk : d.date = k <;> simp [insertDay, hdk]
  | cons e rest ih =>
    simp only [insertDay]
    by_cases h : d.date ≤ e.date
    · rw [if_pos h]
      by_cases hdk : d.date = k <;> by_cases hek : e.date = k <;>
        simp [List.filter_cons, hdk, hek]
    · rw [if_neg h]
      by_cases hdk : d.date = k
      · have hek : ¬ e.date = k := fun he => h (le_of_eq (hdk.trans he.symm))
        simp [List.filter_cons, hdk, hek, ih]
      · by_cases hek : e.date = k <;> simp [List.filter_cons, hdk, hek, ih]



lemma filter_sortDays (l : List Day) (k : Int) :
    (sortDays l).filter (fun e => e.date == k) = l.filter (fun e => e.date == k) := by
  induction l with
  | nil => rfl
  | cons d rest ih =>
    have hstep : sortDays (d :: rest) = insertDay d (sortDays rest) := rfl
    rw [hstep, filter_insertDay, ih]
    by_cases hdk : d.date = k <;> simp [hdk, List.filter_cons]

/-- The sort is stable on each date class, so it does not change which entry a
key's map lookup resolves to. -/
lemma mapGet_sortDays (l : List Day) (k : Int) : mapGet (sortDays l) k = mapGet l k := by
  unfold mapGet
  rw [filter_sortDays]

lemma dedupLastWins_cons (d : Day) (rest : List Day) :
    dedupLastWins (d :: rest)
      = (if (dedupLastWins rest).any (fun e => e.date == d.date)
         then dedupLastWins rest else d :: dedupLastWins rest) := rfl

lemma any_date_dedup (l : List Day) (k : Int) :
    (dedupLastWins l).any (fun e => e.date == k) = l.any (fun e => e.date == k) := by
  induction l generalizing k with
  | nil => rfl
  | cons d rest ih =>
    rw [dedupLastWins_cons]
    by_cases hp : (dedupLastWins rest).any (fun e => e.date == d.date) = true
    · rw [if_pos hp, ih k, List.any_cons]
      by_cases hdk : d.date = k
      · have hr : rest.any (fun e => e.date == d.date) = true := by
          rw [← ih d.date]; exact hp
        rw [hdk] at hr
        simp [hr]
      · simp [hdk]
    · rw [if_neg hp, List.any_cons, List.any_cons, ih k]

lemma mem_dedup_subset {x : Day} {l : List Day} (hx : x ∈ dedupLastWins l) : x ∈ l := by
  induction l with
  | nil => simp [dedupLastWins] at hx
  | cons d rest ih =>
    rw [dedupLastWins_cons] at hx
    by_cases hp : (dedupLastWins rest).any (fun e => e.date == d.date) = true
    · rw [if_pos hp] at hx
      exact List.mem_cons.mpr (Or.inr (ih hx))
    · rw [if_neg hp] at hx
      rcases List.mem_cons.mp hx with rfl | hx
      · exact List.mem_cons_self _ _
      · exact List.mem_cons.mpr (Or.inr (ih hx))
lemma filter_eq_nil_of_any_false {l : List Day} {k : Int}
    (h : l.any (fun e => e.date == k) = false) :
    l.filter (fun e => e.date == k) = [] := by
  rw [List.filter_eq_nil_iff]
  intro a ha
  exact List.any_eq_false.mp h a ha

lemma filter_ne_nil_of_any_true {l : List Day} {k : Int}
    (h : l.any (fun e => e.date == k) = true) :
    l.filter (fun e => e.date == k) ≠ [] := by
  obtain ⟨x, hx, hxk⟩ := List.any_eq_true.mp h
  intro hnil
  have hm : x ∈ l.filter (fun e => e.date == k) := List.mem_filter.mpr ⟨hx, hxk⟩
  rw [hnil] at hm
  exact absurd hm (List.not_mem_nil x)

lemma mapGet_cons_of_any {d : Day} {rest : List Day} {k : Int}
    (h : rest.any (fun e => e.date == k) = true) :
    mapGet (d :: rest) k = mapGet rest k := by
  unfold mapGet
  rw [List.filter_cons]
  rcases hf : rest.filter (fun e => e.date == k) with _ | ⟨x, xs⟩
  · exact absurd hf (filter_ne_nil_of_any_true h)
  · by_cases hdk : (d.date == k) = true
    · rw [if_pos hdk, hf, List.getLast?_cons_cons]
    · rw [if_neg hdk]

lemma mapGet_cons_self {d : Day} {rest : List Day} {k : Int}
    (h : rest.any (fun e => e.date == k) = false) (hdk : d.date = k) :
    mapGet (d :: rest) k = d.contributionCount := by
  unfold mapGet
  rw [List.filter_cons, filter_eq_nil_of_any_false h, if_pos (by simpa using hdk),
    List.getLast?_singleton]

lemma mapGet_cons_ne {d : Day} {rest : List Day} {k : Int} (hdk : ¬ d.date = k) :
    mapGet (d :: rest) k = mapGet rest k := by
  unfold mapGet
  rw [List.filter_cons, if_neg (by simpa using hdk)]

/-- Last-wins deduplication does not change any map lookup: the map already
keeps only the last entry per date. -/
lemma mapGet_dedup (l : List Day) (k : Int) :
    mapGet (dedupLastWins l) k = mapGet l k := by
  induction l generalizing k with
  | nil => rfl
  | cons d rest ih =>
    rw [dedupLastWins_cons]
    by_cases hp : (dedupLastWins rest).any (fun e => e.date == d.date) = true
    · rw [if_pos hp, ih k]
      by_cases hdk : d.date = k
      · have hr : rest.any (fun e => e.date == k) = true := by
          rw [any_date_dedup] at hp
          rw [← hdk]
          exact hp
        rw [mapGet_cons_of_any hr]
      · rw [mapGet_cons_ne hdk]
    · rw [if_neg hp]
      have hpr : rest.any (fun e => e.date == d.date) = false := by
        rw [← any_date_dedup]
        exact Bool.eq_false_iff.mpr hp
      by_cases hdk : d.date = k
      · have hr : rest.any (fun e => e.date == k) = false := hdk ▸ hpr
        have hd2 : (dedupLastWins rest).any (fun e => e.date == k) = false := by
          rw [any_date_dedup]
          exact hr
        rw [mapGet_cons_self hd2 hdk, mapGet_cons_self hr hdk]
      · rw [mapGet_cons_ne hdk, mapGet_cons_ne hdk, ih k]



lemma sortDays_eq_nil_iff (l : List Day) : sortDays l = [] ↔ l = [] := by
  constructor
  · intro h
    have hp := sortDays_perm l
    rw [h] at hp
    exact hp.symm.eq_nil
  · intro h; rw [h]; rfl

lemma dedupLastWins_ne_nil (d : Day) (rest : List Day) :
    dedupLastWins (d :: rest) ≠ [] := by
  rw [dedupLastWins_cons]
  by_cases hp : (dedupLastWins rest).any (fun e => e.date == d.date) = true
  · rw [if_pos hp]
    intro hnil
    rw [hnil] at hp
    simp at hp
  · rw [if_neg hp]
    exact List.cons_ne_nil _ _

/-- Deduplication preserves the earliest date of the sorted window (the date
set is unchanged, so the minimum is unchanged). -/
lemma head_date_sortDays_dedup (l : List Day) :
    ((sortDays (dedupLastWins l)).head?.map Day.date)
      = ((sortDays l).head?.map Day.date) := by
  rcases hl : sortDays l with _ | ⟨h, t⟩
  · have hnil : l = [] := (sortDays_eq_nil_iff l).mp hl
    rw [hnil]; rfl
  · rcases l with _ | ⟨d0, rest0⟩
    · simp [sortDays] at hl
    rcases hD : sortDays (dedupLastWins (d0 :: rest0)) with _ | ⟨h', t'⟩
    · exact absurd ((sortDays_eq_nil_iff _).mp hD) (dedupLastWins_ne_nil d0 rest0)
    have hsorted : SortedByDate (h :: t) := hl ▸ sorted_sortDays (d0 :: rest0)
    have hsortedD : SortedByDate (h' :: t') := hD ▸ sorted_sortDays (dedupLastWins (d0 :: rest0))
    -- h.date ≤ h'.date: h' belongs to the original list
    have hsub : h' ∈ (d0 :: rest0) := by
      have : h' ∈ sortDays (dedupLastWins (d0 :: rest0)) := by
        rw [hD]; exact List.mem_cons_self _ _
      exact mem_dedup_subset ((sortDays_perm _).mem_iff.mp this)
    have hle1 : h.date ≤ h'.date := by
      have : h' ∈ sortDays (d0 :: rest0) := (sortDays_perm _).mem_iff.mpr hsub
      rw [hl] at this
      exact head_date_le hsorted this
    -- h'.date ≤ h.date: some element of the deduplicated list has h.date
    have hmem : h ∈ (d0 :: rest0) := by
      have : h ∈ sortDays (d0 :: rest0) := by
        rw [hl]; exact List.mem_cons_self _ _
      exact (sortDays_perm _).mem_iff.mp this
    have hany : (d0 :: rest0).any (fun e => e.date == h.date) = true := by
      rw [List.any_eq_true]
      exact ⟨h, hmem, by simp⟩
    have hanyD : (dedupLastWins (d0 :: rest0)).any (fun e => e.date == h.date) = true := by
      rw [any_date_dedup]; exact hany
    obtain ⟨e, he, hedate⟩ := List.any_eq_true.mp hanyD
    have hedate' : e.date = h.date := by simpa using hedate
    have hle2 : h'.date ≤ h.date := by
      have : e ∈ sortDays (dedupLastWins (d0 :: rest0)) := (sortDays_perm _).mem_iff.mpr he
      rw [hD] at this
      exact hedate' ▸ head_date_le hsortedD this
    have hdate : h'.date = h.date := le_antisymm hle2 hle1
    simp [hdate]

lemma stdFuel_congr {d1 d2 : List Day} (today : Int)
    (hfd : d1.head?.map Day.date = d2.head?.map Day.date)
    (hanchor : currentAnchor d1 today = currentAnchor d2 today) :
    stdFuel d1 today = stdFuel d2 today := by
  unfold stdFuel
  rcases h1 : d1.head? with _ | x
  · rcases h2 : d2.head? with _ | y
    · rfl
    · rw [h1, h2] at hfd
      simp at hfd
  · rcases h2 : d2.head? with _ | y
    · rw [h1, h2] at hfd
      simp at hfd
    · rw [h1, h2] at hfd
      have hxy : x.date = y.date := by simpa using hfd
      show (currentAnchor d1 today - x.date).toNat + 1
          = (currentAnchor d2 today - y.date).toNat + 1
      rw [hanchor, hxy]

/-- The current-streak computation depends on the window only through the map
lookup and the earliest date. -/
lemma currentResult_congr {days1 days2 : List Day} (today : Int)
    (hm : ∀ k, mapGet days1 k = mapGet days2 k)
    (hfd : days1.head?.map Day.date = days2.head?.map Day.date) :
    currentResult days1 today (stdFuel days1 today)
      = currentResult days2 today (stdFuel days2 today) := by
  have hmf : mapGet days1 = mapGet days2 := funext hm
  have hanchor : currentAnchor days1 today = currentAnchor days2 today := by
    unfold currentAnchor
    rw [hm today]
  have hfuel : stdFuel days1 today = stdFuel days2 today :=
    stdFuel_congr today hfd hanchor
  unfold currentResult
  rw [hmf, hfd, hanchor, hfuel]

/-! ### Claim theorems about the current streak, totality and the total -/

/-- C1: the anchor (currentEnd) is today when today's mapped count is positive,
otherwise yesterday; currentStreak is exactly the number of consecutive
calendar days anchor, anchor-1, ... with positive mapped count (dates absent
from the map counting 0, which also makes the walk's stop at the earliest
window date agree with the stop at the first zero-count date); currentStart is
the earliest counted date, the anchor itself when the streak is 0. -/
theorem C1_current_streak (daysAsc : List Day) (today : Int) :
    (computeAllStats daysAsc today).currentEnd
        = (if mapGet (sortDays daysAsc) today = 0 then today - 1 else today) ∧
    (∀ i : Nat, i < (computeAllStats daysAsc today).current →
        0 < mapGet (sortDays daysAsc)
              ((computeAllStats daysAsc today).currentEnd - (i : Int))) ∧
    mapGet (sortDays daysAsc)
        ((computeAllStats daysAsc today).currentEnd
          - ((computeAllStats daysAsc today).current : Int)) = 0 ∧
    (computeAllStats daysAsc today).currentStart
        = (if (computeAllStats daysAsc today).current = 0
           then (computeAllStats daysAsc today).currentEnd
           else (computeAllStats daysAsc today).currentEnd
                - (((computeAllStats daysAsc today).current : Int) - 1)) :=
  computeAllStats_current_char daysAsc today

/-- C5: the returned total is the sum of the count field over every record of
the input (duplicates included), and is the same for every permutation of the
input list. -/
theorem C5_total_sum (daysAsc : List Day) (today : Int) :
    (computeAllStats daysAsc today).total = (daysAsc.map Day.contributionCount).sum ∧
    ∀ other : List Day, daysAsc.Perm other →
      (computeAllStats other today).total = (computeAllStats daysAsc today).total := by
  refine ⟨computeAllStats_total daysAsc today, ?_⟩
  intro other hp
  rw [computeAllStats_total other today, computeAllStats_total daysAsc today,
    (hp.map Day.contributionCount).sum_eq]

/-- C9: `computeAllStats` is total.  In the embedding each piece is a total
function; the one loop of the source with no bound in its for-header is the
backward walk, and giving it any extra fuel beyond `stdFuel` does not change
its result — the walk stops on its own, because each step moves one calendar
day earlier and every date before the earliest window date has mapped count 0. -/
theorem C9_walk_terminates (daysAsc : List Day) (today : Int) (extra : Nat) :
    currentResult (sortDays daysAsc) today (stdFuel (sortDays daysAsc) today + extra)
      = currentResult (sortDays daysAsc) today (stdFuel (sortDays daysAsc) today) ∧
    (computeAllStats daysAsc today).current
      = (currentResult (sortDays daysAsc) today (stdFuel (sortDays daysAsc) today)).1 ∧
    (computeAllStats daysAsc today).currentStart
      = (currentResult (sortDays daysAsc) today (stdFuel (sortDays daysAsc) today)).2 :=
  ⟨currentResult_fuel_stable (sortDays daysAsc) (sorted_sortDays daysAsc) today extra,
   rfl, rfl⟩

/-- C10: the current-streak fields are mutually consistent: a zero streak
reports currentStart = currentEnd (the anchor), a positive streak reports
currentStart = currentEnd - (currentStreak - 1), and in all cases currentStart
is never later than currentEnd. -/
theorem C10_current_range_consistent (daysAsc : List Day) (today : Int) :
    ((computeAllStats daysAsc today).current = 0 →
      (computeAllStats daysAsc today).currentStart
        = (computeAllStats daysAsc today).currentEnd) ∧
    (0 < (computeAllStats daysAsc today).current →
      (computeAllStats daysAsc today).currentStart
        = (computeAllStats daysAsc today).currentEnd
          - (((computeAllStats daysAsc today).current : Int) - 1)) ∧
    (computeAllStats daysAsc today).currentStart
      ≤ (computeAllStats daysAsc today).currentEnd := by
  obtain ⟨-, -, -, hcs⟩ := computeAllStats_current_char daysAsc today
  refine ⟨?_, ?_, ?_⟩
  · intro h0; rw [hcs, if_pos h0]
  · intro hpos; rw [hcs, if_neg (by omega)]
  · rw [hcs]
    split_ifs with h
    · exact le_refl _
    · have h1 : (1 : Int) ≤ ((computeAllStats daysAsc today).current : Int) := by
        exact_mod_cast Nat.one_le_iff_ne_zero.mpr h
      omega

/-! ### The longest-streak scan: windows, the trailing run, the fold invariant -/

lemma trail_append (p : List Day) (d : Day) :
    trail (p ++ [d]) = if 0 < d.contributionCount then trail p + 1 else 0 := by
  unfold trail
  rw [List.reverse_append]
  simp only [List.reverse_singleton, List.singleton_append, List.takeWhile_cons]
  by_cases hd : 0 < d.contributionCount
  · simp [hd]
  · simp [hd]

lemma trail_le_length (l : List Day) : trail l ≤ l.length := by
  unfold trail
  have h := (List.takeWhile_sublist
    (p := fun d => decide (0 < d.contributionCount)) (l := l.reverse)).length_le
  simpa using h

lemma window_append_of_le {p : List Day} (d : Day) {i n : Nat} (h : i + n ≤ p.length) :
    ((p ++ [d]).drop i).take n = (p.drop i).take n := by
  rw [List.drop_append_eq_append_drop, Nat.sub_eq_zero_of_le (by omega : i ≤ p.length),
    List.drop_zero, List.take_append_eq_append_take,
    Nat.sub_eq_zero_of_le (by rw [List.length_drop]; omega : n ≤ (p.drop i).length),
    List.take_zero, List.append_nil]

lemma window_append_suffix {p : List Day} (d : Day) {i n : Nat} (hi : i ≤ p.length)
    (h : i + n = p.length + 1) :
    ((p ++ [d]).drop i).take n = p.drop i ++ [d] := by
  rw [List.drop_append_eq_append_drop, Nat.sub_eq_zero_of_le hi, List.drop_zero]
  have hlen : (p.drop i ++ [d]).length = n := by
    rw [List.length_append, List.length_singleton, List.length_drop]
    omega
  rw [← hlen, List.take_length]

lemma posWindow_append {p : List Day} {d : Day} {i n : Nat} (h : posWindow p i n) :
    posWindow (p ++ [d]) i n := by
  obtain ⟨hlen, hall⟩ := h
  refine ⟨by rw [List.length_append, List.length_singleton]; omega, ?_⟩
  intro e he
  apply hall
  rwa [window_append_of_le d hlen] at he

lemma posWindow_append_cases {p : List Day} {d : Day} {i n : Nat}
    (h : posWindow (p ++ [d]) i n) :
    n = 0 ∨ (i + n ≤ p.length ∧ posWindow p i n) ∨
    (i + n = p.length + 1 ∧ 0 < d.contributionCount ∧
      ∀ e ∈ p.drop i, 0 < e.contributionCount) := by
  obtain ⟨hlen, hall⟩ := h
  rcases Nat.eq_zero_or_pos n with hn | hn
  · exact Or.inl hn
  rw [List.length_append, List.length_singleton] at hlen
  rcases Nat.lt_or_ge (i + n) (p.length + 1) with hlt | hge
  · have hle : i + n ≤ p.length := by omega
    refine Or.inr (Or.inl ⟨hle, hle, ?_⟩)
    intro e he
    apply hall
    rw [window_append_of_le d hle]
    exact he
  · have heq : i + n = p.length + 1 := by omega
    have hi : i ≤ p.length := by omega
    have hwin := window_append_suffix d hi heq
    refine Or.inr (Or.inr ⟨heq, ?_, ?_⟩)
    · apply hall
      rw [hwin]
      exact List.mem_append_right _ (List.mem_singleton.mpr rfl)
    · intro e he
      apply hall
      rw [hwin]
      exact List.mem_append_left _ he

lemma drop_pos_le_trail (p : List Day) (i : Nat) :
    (∀ e ∈ p.drop i, 0 < e.contributionCount) → p.length - i ≤ trail p := by
  induction p using List.reverseRecOn with
  | nil => intro _; simp
  | append_singleton q d ih =>
    intro h
    rcases Nat.lt_or_ge i (q.length + 1) with hi | hi
    · have hi' : i ≤ q.length := by omega
      have hdrop : (q ++ [d]).drop i = q.drop i ++ [d] := by
        rw [List.drop_append_eq_append_drop, Nat.sub_eq_zero_of_le hi', List.drop_zero]
      rw [hdrop] at h
      have hd : 0 < d.contributionCount :=
        h d (List.mem_append_right _ (List.mem_singleton.mpr rfl))
      have hq : ∀ e ∈ q.drop i, 0 < e.contributionCount := fun e he =>
        h e (List.mem_append_left _ he)
      rw [trail_append, if_pos hd, List.length_append, List.length_singleton]
      have := ih hq
      omega
    · rw [List.length_append, List.length_singleton]
      have := trail_le_length (q ++ [d])
      omega

lemma posWindow_trail (l : List Day) : posWindow l (l.length - trail l) (trail l) := by
  induction l using List.reverseRecOn with
  | nil => exact ⟨by simp [trail], by simp⟩
  | append_singleton q d ih =>
    by_cases hd : 0 < d.contributionCount
    · rw [trail_append, if_pos hd]
      have htle : trail q ≤ q.length := trail_le_length q
      refine ⟨by rw [List.length_append, List.length_singleton]; omega, ?_⟩
      have hidx : (q ++ [d]).length - (trail q + 1) = q.length - trail q := by
        rw [List.length_append, List.length_singleton]
        omega
      rw [hidx]
      have hdrop : (q ++ [d]).drop (q.length - trail q)
          = q.drop (q.length - trail q) ++ [d] := by
        rw [List.drop_append_eq_append_drop,
          Nat.sub_eq_zero_of_le (by omega : q.length - trail q ≤ q.length),
          List.drop_zero]
      rw [hdrop]
      have hqlen : (q.drop (q.length - trail q)).length = trail q := by
        rw [List.length_drop]
        omega
      have hwlen : (q.drop (q.length - trail q) ++ [d]).length = trail q + 1 := by
        rw [List.length_append, List.length_singleton, hqlen]
      rw [← hwlen, List.take_length]
      intro e he
      rcases List.mem_append.mp he with he | he
      · apply ih.2
        have hfull : (q.drop (q.length - trail q)).take (trail q)
            = q.drop (q.length - trail q) := by
          apply List.take_of_length_le
          exact le_of_eq hqlen
        rw [hfull]
        exact he
      · rw [List.mem_singleton.mp he]
        exact hd
    · rw [trail_append, if_neg hd]
      exact ⟨by simp, by simp⟩

lemma linv_nil : LInv [] ⟨0, 0, none, none, none⟩ := by
  refine ⟨rfl, fun _ => rfl, ?_, ⟨0, by simp [posWindow]⟩, ?_, fun _ => ⟨rfl, rfl⟩, ?_⟩
  · intro h
    exact absurd h (lt_irrefl 0)
  · intro i n hw
    have h1 := hw.1
    simp at h1
    omega
  · intro h
    exact absurd h (lt_irrefl 0)

lemma linv_step {p : List Day} {st : LongestState} (inv : LInv p st) (d : Day) :
    LInv (p ++ [d]) (longestStep st d) := by
  obtain ⟨hrun, hrs0, hrsPos, hex, hmax, hbest0, hbestPos⟩ := inv
  have hlen1 : (p ++ [d]).length = p.length + 1 := by
    rw [List.length_append, List.length_singleton]
  by_cases hp : 0 < d.contributionCount
  · have htle : trail p ≤ p.length := trail_le_length p
    have hT : trail (p ++ [d]) = st.run + 1 := by
      rw [trail_append, if_pos hp, hrun]
    have hrle : st.run ≤ p.length := hrun ▸ htle
    have hrs' : (if st.run = 0 then some d.date else st.runStart)
        = ((p ++ [d])[p.length - st.run]?).map Day.date := by
      by_cases h0 : st.run = 0
      · rw [if_pos h0, h0, Nat.sub_zero, List.getElem?_concat_length]
        rfl
      · rw [if_neg h0, hrsPos (Nat.pos_of_ne_zero h0)]
        have hlt : p.length - st.run < p.length := by omega
        rw [List.getElem?_append, if_pos hlt]
    have hidx : (p ++ [d]).length - (st.run + 1) = p.length - st.run := by
      rw [hlen1]
      omega
    have hexN : posWindow (p ++ [d]) (p.length - st.run) (st.run + 1) := by
      have hw := posWindow_trail (p ++ [d])
      rw [hT, hidx] at hw
      exact hw
    by_cases hM : st.max < st.run + 1
    · -- the trailing run becomes the new best
      have hmaxN : ∀ i n, posWindow (p ++ [d]) i n → n ≤ st.run + 1 := by
        intro i n hw
        rcases posWindow_append_cases hw with hn | ⟨_, hw2⟩ | ⟨heq, _, hdrop⟩
        · omega
        · have hle := hmax i n hw2
          omega
        · have hb := drop_pos_le_trail p i hdrop
          rw [← hrun] at hb
          omega
      have hstep : longestStep st d
          = { max := st.run + 1, run := st.run + 1,
              runStart := if st.run = 0 then some d.date else st.runStart,
              bestStart := if st.run = 0 then some d.date else st.runStart,
              bestEnd := some d.date } := by
        simp [longestStep, hp, hM]
      rw [hstep]
      refine ⟨?_, ?_, ?_, ?_, ?_, ?_, ?_⟩
      · exact hT.symm
      · show st.run + 1 = 0 → _
        intro h
        exact absurd h (Nat.succ_ne_zero st.run)
      · show 0 < st.run + 1 →
          (if st.run = 0 then some d.date else st.runStart)
            = ((p ++ [d])[(p ++ [d]).length - (st.run + 1)]?).map Day.date
        intro _
        rw [hidx]
        exact hrs'
      · exact ⟨p.length - st.run, hexN⟩
      · exact hmaxN
      · show st.run + 1 = 0 → _
        intro h
        exact absurd h (Nat.succ_ne_zero st.run)
      · show 0 < st.run + 1 →
          ∃ i, posWindow (p ++ [d]) i (st.run + 1) ∧
            (∀ j, posWindow (p ++ [d]) j (st.run + 1) → i ≤ j) ∧
            (if st.run = 0 then some d.date else st.runStart)
              = ((p ++ [d])[i]?).map Day.date ∧
            some d.date = ((p ++ [d])[i + (st.run + 1) - 1]?).map Day.date
        intro _
        refine ⟨p.length - st.run, hexN, ?_, hrs', ?_⟩
        · intro j hj
          rcases posWindow_append_cases hj with hn | ⟨_, hw2⟩ | ⟨heq, _, _⟩
          · omega
          · exact absurd (hmax j (st.run + 1) hw2) (by omega)
          · omega
        · have hidx2 : p.length - st.run + (st.run + 1) - 1 = p.length := by omega
          rw [hidx2, List.getElem?_concat_length]
          rfl
    · -- the best is unchanged; only the running state advances
      have hstep : longestStep st d
          = { st with run := st.run + 1,
                      runStart := if st.run = 0 then some d.date else st.runStart } := by
        simp [longestStep, hp, hM]
      rw [hstep]
      obtain ⟨iw, hiw⟩ := hex
      refine ⟨?_, ?_, ?_, ?_, ?_, ?_, ?_⟩
      · exact hT.symm
      · show st.run + 1 = 0 → _
        intro h
        exact absurd h (Nat.succ_ne_zero st.run)
      · show 0 < st.run + 1 →
          (if st.run = 0 then some d.date else st.runStart)
            = ((p ++ [d])[(p ++ [d]).length - (st.run + 1)]?).map Day.date
        intro _
        rw [hidx]
        exact hrs'
      · exact ⟨iw, posWindow_append hiw⟩
      · show ∀ i n, posWindow (p ++ [d]) i n → n ≤ st.max
        intro i n hw
        rcases posWindow_append_cases hw with hn | ⟨_, hw2⟩ | ⟨heq, _, hdrop⟩
        · omega
        · exact hmax i n hw2
        · have hb := drop_pos_le_trail p i hdrop
          rw [← hrun] at hb
          omega
      · exact hbest0
      · show 0 < st.max →
          ∃ i, posWindow (p ++ [d]) i st.max ∧
            (∀ j, posWindow (p ++ [d]) j st.max → i ≤ j) ∧
            st.bestStart = ((p ++ [d])[i]?).map Day.date ∧
            st.bestEnd = ((p ++ [d])[i + st.max - 1]?).map Day.date
        intro hpos
        obtain ⟨i, hwi, hfirst, hbs, hbe⟩ := hbestPos hpos
        have hib : i + st.max ≤ p.length := hwi.1
        refine ⟨i, posWindow_append hwi, ?_, ?_, ?_⟩
        · intro j hj
          rcases posWindow_append_cases hj with hn | ⟨_, hw2⟩ | ⟨heq, _, _⟩
          · omega
          · exact hfirst j hw2
          · omega
        · rw [hbs, List.getElem?_append, if_pos (by omega : i < p.length)]
        · rw [hbe, List.getElem?_append, if_pos (by omega : i + st.max - 1 < p.length)]
  · -- a zero-count day resets the run and leaves the best unchanged
    have hstep : longestStep st d = { st with run := 0, runStart := none } := by
      simp [longestStep, hp]
    rw [hstep]
    obtain ⟨iw, hiw⟩ := hex
    refine ⟨?_, ?_, ?_, ?_, ?_, ?_, ?_⟩
    · show (0 : Nat) = trail (p ++ [d])
      rw [trail_append, if_neg hp]
    · intro _
      rfl
    · show (0 : Nat) < 0 → _
      intro h
      exact absurd h (lt_irrefl 0)
    · exact ⟨iw, posWindow_append hiw⟩
    · show ∀ i n, posWindow (p ++ [d]) i n → n ≤ st.max
      intro i n hw
      rcases posWindow_append_cases hw with hn | ⟨_, hw2⟩ | ⟨_, hdp, _⟩
      · omega
      · exact hmax i n hw2
      · exact absurd hdp hp
    · exact hbest0
    · show 0 < st.max →
        ∃ i, posWindow (p ++ [d]) i st.max ∧
          (∀ j, posWindow (p ++ [d]) j st.max → i ≤ j) ∧
          st.bestStart = ((p ++ [d])[i]?).map Day.date ∧
          st.bestEnd = ((p ++ [d])[i + st.max - 1]?).map Day.date
      intro hpos
      obtain ⟨i, hwi, hfirst, hbs, hbe⟩ := hbestPos hpos
      have hib : i + st.max ≤ p.length := hwi.1
      refine ⟨i, posWindow_append hwi, ?_, ?_, ?_⟩
      · intro j hj
        rcases posWindow_append_cases hj with hn | ⟨_, hw2⟩ | ⟨_, hdp, _⟩
        · omega
        · exact hfirst j hw2
        · exact absurd hdp hp
      · rw [hbs, List.getElem?_append, if_pos (by omega : i < p.length)]
      · rw [hbe, List.getElem?_append, if_pos (by omega : i + st.max - 1 < p.length)]

lemma linv_foldl (p : List Day) :
    LInv p (p.foldl longestStep ⟨0, 0, none, none, none⟩) := by
  induction p using List.reverseRecOn with
  | nil => exact linv_nil
  | append_singleton q d ih =>
    rw [List.foldl_append]
    exact linv_step ih d

/-- C2: after sorting ascending by date, longestStreak is the maximum number of
consecutive entries of the sorted list that all have a positive count (0 when
no window of positive entries exists beyond the empty one), and
maxStart/maxEnd are the dates of the first and last entries of the earliest
window attaining that maximum; entries are counted by list position, so
calendar gaps between adjacent entries do not break a run. -/
theorem C2_longest_streak (daysAsc : List Day) (today : Int) :
    (∃ i, posWindow (sortDays daysAsc) i (computeAllStats daysAsc today).max) ∧
    (∀ i n, posWindow (sortDays daysAsc) i n → n ≤ (computeAllStats daysAsc today).max) ∧
    ((computeAllStats daysAsc today).max = 0 →
      (computeAllStats daysAsc today).maxStart = none ∧
      (computeAllStats daysAsc today).maxEnd = none) ∧
    (0 < (computeAllStats daysAsc today).max →
      ∃ i, posWindow (sortDays daysAsc) i (computeAllStats daysAsc today).max ∧
        (∀ j, posWindow (sortDays daysAsc) j (computeAllStats daysAsc today).max → i ≤ j) ∧
        (computeAllStats daysAsc today).maxStart
          = ((sortDays daysAsc)[i]?).map Day.date ∧
        (computeAllStats daysAsc today).maxEnd
          = ((sortDays daysAsc)[i + (computeAllStats daysAsc today).max - 1]?).map Day.date) := by
  obtain ⟨-, -, -, hex, hmax, hb0, hbp⟩ := linv_foldl (sortDays daysAsc)
  exact ⟨hex, hmax, hb0, hbp⟩

/-- C3, amended: last-wins deduplication leaves the current-streak fields
unchanged (the walk's map is already last-wins and the earliest window date is
preserved), even though it does change total and longestStreak in general. -/
theorem C3_current_dedup_invariant (daysAsc : List Day) (today : Int) :
    (computeAllStats (dedupLastWins daysAsc) today).current
        = (computeAllStats daysAsc today).current ∧
    (computeAllStats (dedupLastWins daysAsc) today).currentStart
        = (computeAllStats daysAsc today).currentStart ∧
    (computeAllStats (dedupLastWins daysAsc) today).currentEnd
        = (computeAllStats daysAsc today).currentEnd := by
  have hm : ∀ k, mapGet (sortDays (dedupLastWins daysAsc)) k
      = mapGet (sortDays daysAsc) k := by
    intro k
    rw [mapGet_sortDays, mapGet_sortDays, mapGet_dedup]
  have hfd := head_date_sortDays_dedup daysAsc
  have hcr := currentResult_congr today hm hfd
  have hanchor : currentAnchor (sortDays (dedupLastWins daysAsc)) today
      = currentAnchor (sortDays daysAsc) today := by
    unfold currentAnchor
    rw [hm today]
  exact ⟨congrArg Prod.fst hcr, congrArg Prod.snd hcr, hanchor⟩

end StreakBadge
